import Mathlib

/-!
Shallow embedding of the numeric core of the neurods library
(src/neurods/fmri.py and src/neurods/viz.py), together with proofs of the
behavioural properties claimed for it.  NumPy float arrays are modelled as
lists of real numbers and NumPy scalars as real numbers; a 2D design matrix
is represented by its list of columns.
-/

namespace Neurods

/-- Python str.lower restricted to the ASCII strings used as HRF shape
names: lowercase each character. -/
def pyLower (s : String) : String := ⟨s.data.map Char.toLower⟩

/-- Density of the gamma distribution as computed by
scipy.stats.gamma.pdf(x, a, loc): zero below the location parameter, and
(x-loc)^(a-1) exp(-(x-loc)) / Gamma(a) at or above it.  In the hrf code the
third positional argument (pdsp or ndsp) is this loc parameter. -/
noncomputable def gammaPdf (x a loc : ℝ) : ℝ :=
  if loc ≤ x then (x - loc) ^ (a - 1) * Real.exp (-(x - loc)) / Real.Gamma a else 0

/-- NumPy np.arange(start, stop, step) for a nonzero step:
ceil((stop-start)/step) evenly spaced values start + i*step.  (np.arange
raises on step = 0; no claim exercises that case.) -/
noncomputable def arange (start stop step : ℝ) : List ℝ :=
  (List.range (Int.ceil ((stop - start) / step)).toNat).map (fun i => start + i * step)

/-- Time grid built by hrf: np.arange(0, onset + 2*(nttp+1), tr) - onset when
t is None, and np.arange(np.min(t), np.max(t), tr) - onset otherwise
(np.min/np.max raise on an empty t; the model returns a default there). -/
noncomputable def hrfT (tr nttp onset : ℝ) (ts : Option (List ℝ)) : List ℝ :=
  match ts with
  | none => (arange 0 (onset + 2 * (nttp + 1)) tr).map (fun x => x - onset)
  | some t0 => (arange (t0.min?.getD 0) (t0.max?.getD 0) tr).map (fun x => x - onset)

/-- Unnormalized HRF kernel: h starts as zeros and is overwritten by the
boynton branch (single gamma density) or the twogamma branch (difference of
two gamma densities, the negative one divided by pos_neg_ratio). -/
noncomputable def hrfKernelRaw (shape : String) (pttp nttp pos_neg_ratio pdsp ndsp : ℝ)
    (t : List ℝ) : List ℝ :=
  if pyLower shape = "boynton" then
    t.map (fun x => gammaPdf x (pttp + 1) pdsp)
  else if pyLower shape = "twogamma" then
    t.map (fun x => gammaPdf x (pttp + 1) pdsp - gammaPdf x (nttp + 1) ndsp / pos_neg_ratio)
  else
    List.replicate t.length 0

/-- Model of neurods.fmri.hrf.  The first component records the warnings
emitted by warnings.warn, the second is the returned sample grid t, the
third the returned kernel h, normalized in place by h /= np.sum(h). -/
noncomputable def hrf (shape : String) (tr pttp nttp pos_neg_ratio onset pdsp ndsp : ℝ)
    (ts : Option (List ℝ)) : List String × List ℝ × List ℝ :=
  let ws :=
    if pyLower shape = "twogamma" ∨ pyLower shape = "boynton" then
      (([] : List String), shape)
    else
      (["Shape can only be \"twogamma\" or \"boynton\""], "twogamma")
  let t := hrfT tr nttp onset ts
  let h := hrfKernelRaw ws.2 pttp nttp pos_neg_ratio pdsp ndsp t
  (ws.1, t, h.map (fun x => x / h.sum))

/-- Value of a list at an integer index, zero outside the valid range
(the effect of constant zero padding). -/
def dAt (l : List ℝ) (z : ℤ) : ℝ :=
  if 0 ≤ z ∧ z < l.length then l.getD z.toNat 0 else 0

/-- Discrete convolution sum at output index i: the textbook formula
(x * v)[i] = sum over j of x[j] * v[i-j] from the np.convolve documentation. -/
noncomputable def convAt (x v : List ℝ) (i : ℕ) : ℝ :=
  ∑ j ∈ Finset.range x.length, x.getD j 0 * dAt v ((i : ℤ) - j)

/-- Model of np.convolve(x, v, mode='full') following its documented
semantics: output length len(x)+len(v)-1 with entry i equal to convAt. -/
noncomputable def convolve_full (x v : List ℝ) : List ℝ :=
  (List.range (x.length + v.length - 1)).map (convAt x v)

/-- Model of neurods.fmri.simple_convolution: pad the data with nk-1 zeros
in front and nk behind, preallocate nd+2nk zeros, slide the reversed kernel
over the padded data stopping once the window overruns it, and clip the
output to the original data length. -/
noncomputable def simple_convolution (data kernel : List ℝ) : List ℝ :=
  let nk := kernel.length
  let nd := data.length
  let data_ := List.replicate (nk - 1) (0 : ℝ) ++ data ++ List.replicate nk 0
  let out := (List.range (nd + nk * 2)).map (fun i =>
    if i + nk ≤ data_.length then
      ∑ j ∈ Finset.range nk, data_.getD (i + j) 0 * kernel.reverse.getD j 0
    else 0)
  out.take nd

/-- Model of neurods.fmri.apply_hrf: build the hrf kernel, then convolve
each column of the design matrix with it by np.convolve(x, hrf_,
mode='full') clipped to the column length. -/
noncomputable def apply_hrf (X : List (List ℝ)) (shape : String)
    (tr pttp nttp pos_neg_ratio onset pdsp ndsp : ℝ) (ts : Option (List ℝ)) :
    List (List ℝ) :=
  let hrf_ := (hrf shape tr pttp nttp pos_neg_ratio onset pdsp ndsp ts).2.2
  X.map (fun x => (convolve_full x hrf_).take x.length)

/-- NumPy arrays of one, two or three dimensions, as distinguished by the
np.ndim tests in unmask. -/
inductive NDArr where
  | d1 : List ℝ → NDArr
  | d2 : List (List ℝ) → NDArr
  | d3 : List (List (List ℝ)) → NDArr

/-- Number of True entries of a boolean mask (mask.sum in NumPy terms). -/
def maskCount (mask : List Bool) : ℕ := (mask.filter (fun b => b)).length

/-- NumPy boolean-mask assignment br[mask] = data on a fresh bg-valued
volume: True positions take successive data values, False positions keep
bg.  It models the exact-size case len(data) = mask.sum, the only one the
claims exercise. -/
def fillMask (mask : List Bool) (data : List ℝ) (bg : ℝ) : List ℝ :=
  match mask, data with
  | [], _ => []
  | true :: ms, d :: ds => d :: fillMask ms ds bg
  | true :: ms, [] => bg :: fillMask ms [] bg
  | false :: ms, ds => bg :: fillMask ms ds bg

/-- NumPy boolean-mask read br[mask]: the volume entries at True positions
of the mask, in order. -/
def applyMask (vol : List ℝ) (mask : List Bool) : List ℝ :=
  ((vol.zip mask).filter (fun p => p.2)).map (fun p => p.1)

/-- Model of neurods.fmri.unmask.  The mask is a boolean volume in
row-major order; 1D data fills a fresh bg-valued volume at the True
positions, 2D data does so row by row, and any higher-dimensional data hits
the raise statement. -/
def unmask (data : NDArr) (mask : List Bool) (bg : ℝ) : Except String NDArr :=
  match data with
  | .d1 v => .ok (.d1 (fillMask mask v bg))
  | .d2 rows => .ok (.d2 (rows.map (fun r => fillMask mask r bg)))
  | .d3 _ => .error "Cannot unmask > 2D data!"

/-- Per-event window of compute_event_avg: tmp = data[st:st+T], extended by
np.zeros(st+T - len(data)) when the window overruns the data. -/
def eventWindow (data : List ℝ) (st T : ℕ) : List ℝ :=
  let tmp := (data.drop st).take T
  if st + T > data.length then tmp ++ List.replicate (st + T - data.length) (0 : ℝ) else tmp

/-- Event onsets: np.nonzero(events)[0] for a boolean event vector, or the
events themselves when they are already onset indices. -/
def event_start : List Bool ⊕ List ℕ → List ℕ
  | Sum.inl bs => (List.range bs.length).filter (fun i => bs.getD i false)
  | Sum.inr os => os

/-- Element-wise np.nanmean over a stack of windows (axis=0): entry i is
the mean of the entries at position i.  The model carries no NaN values, so
nanmean coincides with mean; the result length is the length of the first
window, which under the claims equals every window length. -/
noncomputable def nanmean0 (stack : List (List ℝ)) : List ℝ :=
  (List.range ((stack.headD []).length)).map (fun i =>
    (stack.map (fun w => w.getD i 0)).sum / stack.length)

/-- Model of neurods.fmri.compute_event_avg for 1D data. -/
noncomputable def compute_event_avg (data : List ℝ) (events : List Bool ⊕ List ℕ)
    (time_per_event : ℕ) : List ℝ :=
  let starts := event_start events
  nanmean0 (starts.map (fun st => eventWindow data st time_per_event))

/-- Model of neurods.viz.find_squarish_dimensions under exact real square
root semantics: round(sq) == sq detects perfect squares, np.floor and
np.ceil of sq are Nat.sqrt n and Nat.sqrt n + 1 for imperfect squares, err
holds the two cell surpluses, negative entries are overwritten with 1000,
and np.argmin takes the first minimum. -/
def find_squarish_dimensions (n : ℕ) : ℕ × ℕ :=
  let s := Nat.sqrt n
  if s * s = n then (s, s)
  else
    let c := s + 1
    let err1 : ℤ := (c * c : ℕ) - (n : ℤ)
    let err2 : ℤ := (c * s : ℕ) - (n : ℤ)
    let err1m := if err1 < 0 then 1000 else err1
    let err2m := if err2 < 0 then 1000 else err2
    if err1m ≤ err2m then (c, c) else (c, s)

theorem pyLower_twogamma : pyLower "twogamma" = "twogamma" := rfl

theorem pyLower_boynton : pyLower "boynton" = "boynton" := rfl

theorem sum_map_div (l : List ℝ) (s : ℝ) : (l.map (fun x => x / s)).sum = l.sum / s := by
  induction l with
  | nil => simp
  | cons a t ih => simp [ih, add_div]

/-- C1: for shape twogamma or boynton and every parameter setting for which
the unnormalized kernel sums to a nonzero value, the kernel h returned by
hrf sums to 1 (normalization to unit sum after sampling). -/
theorem hrf_sum_one (shape : String) (tr pttp nttp pos_neg_ratio onset pdsp ndsp : ℝ)
    (ts : Option (List ℝ))
    (hs : shape = "twogamma" ∨ shape = "boynton")
    (hnz : (hrfKernelRaw shape pttp nttp pos_neg_ratio pdsp ndsp
      (hrfT tr nttp onset ts)).sum ≠ 0) :
    ((hrf shape tr pttp nttp pos_neg_ratio onset pdsp ndsp ts).2.2).sum = 1 := by
  rcases hs with h | h <;> subst h <;>
    simp only [hrf, pyLower_twogamma, pyLower_boynton, true_or, or_true, if_true, if_pos] <;>
    rw [sum_map_div, div_self hnz]

/-- Witness for C1 at shape boynton, tr = 1, pttp = 0, nttp = 0, pdsp = 0:
the grid is [0, 1] and the unnormalized kernel [1, exp(-1)] has positive
sum, so the returned kernel sums to 1. -/
theorem hrf_sum_one_witness :
    (("boynton" : String) = "twogamma" ∨ ("boynton" : String) = "boynton")
    ∧ (hrfKernelRaw "boynton" 0 0 6 0 1 (hrfT 1 0 0 none)).sum ≠ 0
    ∧ ((hrf "boynton" 1 0 0 6 0 0 1 none).2.2).sum = 1 := by
  have hT : hrfT 1 0 0 none = [0, 1] := by
    have hc : Int.ceil ((0 + 2 * (0 + 1) - 0) / 1 : ℝ) = 2 := by norm_num
    simp [hrfT, arange, hc, List.range_succ]
  have hraw : (hrfKernelRaw "boynton" 0 0 6 0 1 (hrfT 1 0 0 none)).sum
      = 1 + Real.exp (-1) := by
    have g0 : gammaPdf 0 1 0 = 1 := by
      norm_num [gammaPdf, Real.Gamma_one, Real.rpow_zero]
    have g1 : gammaPdf 1 1 0 = Real.exp (-1) := by
      norm_num [gammaPdf, Real.Gamma_one, Real.rpow_zero]
    simp [hT, hrfKernelRaw, pyLower_boynton, g0, g1]
  have hnz : (hrfKernelRaw "boynton" 0 0 6 0 1 (hrfT 1 0 0 none)).sum ≠ 0 := by
    rw [hraw]
    positivity
  exact ⟨Or.inr rfl, hnz, hrf_sum_one "boynton" 1 0 0 6 0 0 1 none (Or.inr rfl) hnz⟩

/-- C4: before normalization the kernel is built from gamma density curves
sampled on the time grid: the pointwise difference of two gamma densities
for twogamma (the negative one divided by pos_neg_ratio) and a single gamma
density for boynton; hrf returns exactly these curves divided by their sum. -/
theorem hrf_kernel_gamma_curves (tr pttp nttp pos_neg_ratio onset pdsp ndsp : ℝ)
    (t : List ℝ) (ts : Option (List ℝ)) :
    hrfKernelRaw "twogamma" pttp nttp pos_neg_ratio pdsp ndsp t
      = t.map (fun x => gammaPdf x (pttp + 1) pdsp - gammaPdf x (nttp + 1) ndsp / pos_neg_ratio)
    ∧ hrfKernelRaw "boynton" pttp nttp pos_neg_ratio pdsp ndsp t
      = t.map (fun x => gammaPdf x (pttp + 1) pdsp)
    ∧ (hrf "twogamma" tr pttp nttp pos_neg_ratio onset pdsp ndsp ts).2.2
      = (hrfKernelRaw "twogamma" pttp nttp pos_neg_ratio pdsp ndsp (hrfT tr nttp onset ts)).map
          (fun x => x / (hrfKernelRaw "twogamma" pttp nttp pos_neg_ratio pdsp ndsp
            (hrfT tr nttp onset ts)).sum)
    ∧ (hrf "boynton" tr pttp nttp pos_neg_ratio onset pdsp ndsp ts).2.2
      = (hrfKernelRaw "boynton" pttp nttp pos_neg_ratio pdsp ndsp (hrfT tr nttp onset ts)).map
          (fun x => x / (hrfKernelRaw "boynton" pttp nttp pos_neg_ratio pdsp ndsp
            (hrfT tr nttp onset ts)).sum) := by
  have hne : pyLower "twogamma" ≠ "boynton" := by decide
  refine ⟨?_, ?_, ?_, ?_⟩ <;>
    simp [hrfKernelRaw, hrf, pyLower_twogamma, pyLower_boynton, hne]

/-- C5: calling hrf with a shape whose lowercasing is neither twogamma nor
boynton emits the shape warning and returns exactly the t and h that
shape twogamma produces with the same remaining parameters (which itself
emits no warning). -/
theorem hrf_unknown_shape_defaults (shape : String)
    (tr pttp nttp pos_neg_ratio onset pdsp ndsp : ℝ) (ts : Option (List ℝ))
    (hs : pyLower shape ≠ "twogamma" ∧ pyLower shape ≠ "boynton") :
    (hrf shape tr pttp nttp pos_neg_ratio onset pdsp ndsp ts).1
      = ["Shape can only be \"twogamma\" or \"boynton\""]
    ∧ (hrf shape tr pttp nttp pos_neg_ratio onset pdsp ndsp ts).2
      = (hrf "twogamma" tr pttp nttp pos_neg_ratio onset pdsp ndsp ts).2
    ∧ (hrf "twogamma" tr pttp nttp pos_neg_ratio onset pdsp ndsp ts).1 = [] := by
  simp [hrf, hs.1, hs.2, pyLower_twogamma]

/-- Witness for C5 at the unrecognized shape gauss. -/
theorem hrf_unknown_shape_defaults_witness :
    (pyLower "gauss" ≠ "twogamma" ∧ pyLower "gauss" ≠ "boynton")
    ∧ (hrf "gauss" 1 5 15 6 0 1 1 none).2 = (hrf "twogamma" 1 5 15 6 0 1 1 none).2 := by
  have h : pyLower "gauss" ≠ "twogamma" ∧ pyLower "gauss" ≠ "boynton" := by decide
  exact ⟨h, (hrf_unknown_shape_defaults "gauss" 1 5 15 6 0 1 1 none h).2.1⟩

/-- C9 (code bug): at n = 1003003 the sentinel 1000 written over negative
err entries is smaller than the legitimate surplus 1001 of the ceil-by-ceil
grid, so argmin picks the deficient 1002-by-1001 grid, whose cell count
falls short of n, contradicting the intent stated in the source comment. -/
theorem find_squarish_dimensions_overflow_bug :
    find_squarish_dimensions 1003003 = (1002, 1001) ∧ 1002 * 1001 < 1003003 := by
  have hs : Nat.sqrt 1003003 = 1001 := by
    have h1 : 1001 ≤ Nat.sqrt 1003003 := Nat.le_sqrt.mpr (by norm_num)
    have h2 : Nat.sqrt 1003003 < 1002 := Nat.sqrt_lt.mpr (by norm_num)
    omega
  refine ⟨?_, by norm_num⟩
  norm_num [find_squarish_dimensions, hs]

theorem getD_replicate (n : ℕ) (a : ℝ) (m : ℕ) (d : ℝ) :
    (List.replicate n a).getD m d = if m < n then a else d := by
  rcases Nat.lt_or_ge m n with h | h
  · simp [List.getD, List.getElem?_replicate, h]
  · simp [List.getD, List.getElem?_eq_none, h, Nat.not_lt.mpr h]

theorem getD_append_ite (l l' : List ℝ) (m : ℕ) (d : ℝ) :
    (l ++ l').getD m d = if m < l.length then l.getD m d else l'.getD (m - l.length) d := by
  rcases Nat.lt_or_ge m l.length with h | h
  · simp [List.getD, List.getElem?_append, h]
  · simp [List.getD, List.getElem?_append, h, Nat.not_lt.mpr h]

/-- C6: the raise in unmask fires exactly for data of more than two
dimensions: 3D data yields an error, while 1D data matching the mask count
and 2D data whose rows all match the mask count return normally. -/
theorem unmask_error_behavior (v3 : List (List (List ℝ))) (v : List ℝ)
    (rows : List (List ℝ)) (mask : List Bool) (bg : ℝ)
    (h1 : v.length = maskCount mask) (h2 : ∀ r ∈ rows, r.length = maskCount mask) :
    (∃ e, unmask (.d3 v3) mask bg = .error e)
    ∧ (∃ out, unmask (.d1 v) mask bg = .ok out)
    ∧ (∃ out, unmask (.d2 rows) mask bg = .ok out) :=
  ⟨⟨_, rfl⟩, ⟨_, rfl⟩, ⟨_, rfl⟩⟩

/-- Witness for C6: a 3-voxel mask with two True entries, matching 1D and
2D data, and a 3D array. -/
theorem unmask_error_behavior_witness :
    (([5, 7] : List ℝ).length = maskCount [true, false, true]
      ∧ ∀ r ∈ ([[1, 2]] : List (List ℝ)), r.length = maskCount [true, false, true])
    ∧ (∃ e, unmask (.d3 [[[0]]]) [true, false, true] 9 = .error e) := by
  have h1 : ([5, 7] : List ℝ).length = maskCount [true, false, true] := by
    simp [maskCount]
  have h2 : ∀ r ∈ ([[1, 2]] : List (List ℝ)), r.length = maskCount [true, false, true] := by
    simp [maskCount]
  exact ⟨⟨h1, h2⟩,
    (unmask_error_behavior [[[0]]] [5, 7] [[1, 2]] [true, false, true] 9 h1 h2).1⟩

theorem applyMask_cons_true (a : ℝ) (vs : List ℝ) (ms : List Bool) :
    applyMask (a :: vs) (true :: ms) = a :: applyMask vs ms := by
  simp [applyMask]

theorem applyMask_cons_false (a : ℝ) (vs : List ℝ) (ms : List Bool) :
    applyMask (a :: vs) (false :: ms) = applyMask vs ms := by
  simp [applyMask]

theorem fillMask_applyMask (mask : List Bool) : ∀ (data : List ℝ) (bg : ℝ),
    data.length = maskCount mask → applyMask (fillMask mask data bg) mask = data := by
  induction mask with
  | nil =>
    intro data bg h
    have hd : data = [] := List.eq_nil_of_length_eq_zero (by simpa [maskCount] using h)
    subst hd
    simp [fillMask, applyMask]
  | cons b ms ih =>
    intro data bg h
    cases b with
    | false =>
      rw [show fillMask (false :: ms) data bg = bg :: fillMask ms data bg from rfl,
        applyMask_cons_false]
      exact ih data bg (by simpa [maskCount] using h)
    | true =>
      cases data with
      | nil => simp [maskCount, List.filter] at h
      | cons d ds =>
        rw [show fillMask (true :: ms) (d :: ds) bg = d :: fillMask ms ds bg from rfl,
          applyMask_cons_true]
        rw [ih ds bg (by simpa [maskCount] using h)]

theorem fillMask_false_getD (mask : List Bool) : ∀ (data : List ℝ) (bg : ℝ) (i : ℕ),
    i < mask.length → mask.getD i false = false → (fillMask mask data bg).getD i 0 = bg := by
  induction mask with
  | nil => intro data bg i hi _; simp at hi
  | cons b ms ih =>
    intro data bg i hi hm
    cases i with
    | zero =>
      cases b with
      | false =>
        cases data <;> simp [fillMask]
      | true => simp at hm
    | succ n =>
      have hi' : n < ms.length := by simpa using hi
      have hm' : ms.getD n false = false := by simpa using hm
      cases b with
      | false =>
        cases data <;> simpa [fillMask] using ih _ bg n hi' hm'
      | true =>
        cases data with
        | nil => simpa [fillMask] using ih [] bg n hi' hm'
        | cons d ds => simpa [fillMask] using ih ds bg n hi' hm'

/-- C8: unmask is a right inverse of masking: reading back the returned
volume at the mask recovers the data (for matching 1D data and row by row
for matching 2D data), and every masked-out position holds exactly the
background value. -/
theorem unmask_right_inverse (mask : List Bool) (data : List ℝ) (rows : List (List ℝ))
    (bg : ℝ) (h1 : data.length = maskCount mask)
    (h2 : ∀ r ∈ rows, r.length = maskCount mask) :
    unmask (.d1 data) mask bg = .ok (.d1 (fillMask mask data bg))
    ∧ applyMask (fillMask mask data bg) mask = data
    ∧ (∀ i, i < mask.length → mask.getD i false = false →
        (fillMask mask data bg).getD i 0 = bg)
    ∧ unmask (.d2 rows) mask bg = .ok (.d2 (rows.map (fun r => fillMask mask r bg)))
    ∧ ∀ r ∈ rows, applyMask (fillMask mask r bg) mask = r := by
  refine ⟨rfl, fillMask_applyMask mask data bg h1, fillMask_false_getD mask data bg,
    rfl, ?_⟩
  intro r hr
  exact fillMask_applyMask mask r bg (h2 r hr)

/-- Witness for C8: mask [true, false, true] with data [5, 7] recovers
[5, 7] and leaves bg = 9 at the masked-out middle position. -/
theorem unmask_right_inverse_witness :
    (([5, 7] : List ℝ).length = maskCount [true, false, true]
      ∧ ∀ r ∈ ([] : List (List ℝ)), r.length = maskCount [true, false, true])
    ∧ applyMask (fillMask [true, false, true] [5, 7] 9) [true, false, true] = [5, 7] := by
  have h1 : ([5, 7] : List ℝ).length = maskCount [true, false, true] := by
    simp [maskCount]
  have h2 : ∀ r ∈ ([] : List (List ℝ)), r.length = maskCount [true, false, true] := by
    simp
  exact ⟨⟨h1, h2⟩, (unmask_right_inverse [true, false, true] [5, 7] [] 9 h1 h2).2.1⟩

theorem eventWindow_length (data : List ℝ) (st T : ℕ) (h : st ≤ data.length) :
    (eventWindow data st T).length = T := by
  simp only [eventWindow]
  split
  · simp only [List.length_append, List.length_take, List.length_drop,
      List.length_replicate]
    omega
  · simp only [List.length_take, List.length_drop]
    omega

theorem getD_drop_take (data : List ℝ) (st T i : ℕ) (h1 : i < T)
    (h2 : st + i < data.length) :
    ((data.drop st).take T).getD i 0 = data.getD (st + i) 0 := by
  have hlen : i < ((data.drop st).take T).length := by
    simp only [List.length_take, List.length_drop]
    omega
  rw [List.getD_eq_getElem _ _ hlen, List.getD_eq_getElem _ _ h2]
  simp

theorem eventWindow_getD (data : List ℝ) (st T i : ℕ) (hst : st ≤ data.length)
    (hi : i < T) :
    (eventWindow data st T).getD i 0
      = if st + i < data.length then data.getD (st + i) 0 else 0 := by
  simp only [eventWindow]
  split
  · rcases Nat.lt_or_ge (st + i) data.length with hin | hout
    · rw [getD_append_ite,
        if_pos (by simp only [List.length_take, List.length_drop]; omega),
        getD_drop_take data st T i hi hin, if_pos hin]
    · rw [getD_append_ite,
        if_neg (by simp only [List.length_take, List.length_drop]; omega),
        getD_replicate, if_neg (Nat.not_lt.mpr hout)]
      split <;> rfl
  · have hin : st + i < data.length := by omega
    rw [getD_drop_take data st T i hi hin, if_pos hin]

/-- C10: for 1D data, positive window length, and a nonempty list of onsets
inside the data, compute_event_avg returns a vector of length exactly
time_per_event whose entry i is the mean over events of data[st+i], with
windows overrunning the data padded by zeros. -/
theorem compute_event_avg_spec (data : List ℝ) (starts : List ℕ) (T : ℕ)
    (hT : 0 < T) (hne : starts ≠ []) (hin : ∀ st ∈ starts, st < data.length) :
    (compute_event_avg data (Sum.inr starts) T).length = T
    ∧ ∀ i, i < T → (compute_event_avg data (Sum.inr starts) T).getD i 0
      = (starts.map (fun st =>
          if st + i < data.length then data.getD (st + i) 0 else 0)).sum
        / starts.length := by
  obtain ⟨s0, rest, rfl⟩ : ∃ s0 rest, starts = s0 :: rest := by
    cases starts with
    | nil => exact absurd rfl hne
    | cons a l => exact ⟨a, l, rfl⟩
  have hhead : ((((s0 :: rest).map (fun st => eventWindow data st T)).headD []).length) = T := by
    simp only [List.map_cons, List.headD_cons]
    exact eventWindow_length data s0 T (Nat.le_of_lt (hin s0 (by simp)))
  have hrepr : compute_event_avg data (Sum.inr (s0 :: rest)) T
      = (List.range T).map (fun i =>
          (((s0 :: rest).map (fun st => eventWindow data st T)).map
            (fun w => w.getD i 0)).sum
          / (((s0 :: rest).map (fun st => eventWindow data st T)).length : ℝ)) := by
    simp only [compute_event_avg, event_start, nanmean0, hhead]
  constructor
  · rw [hrepr]
    simp
  · intro i hiT
    rw [hrepr, List.getD_eq_getElem _ _ (by simpa using hiT)]
    simp only [List.getElem_map, List.getElem_range, List.map_map, List.length_map]
    congr 1
    refine congrArg List.sum (List.map_congr_left ?_)
    intro st hst
    simp only [Function.comp_apply]
    exact eventWindow_getD data st T i (Nat.le_of_lt (hin st hst)) hiT

/-- Witness for C10: data [1, 2, 3], onsets 0 and 2, window length 2; the
second window overruns the data and is padded with a zero. -/
theorem compute_event_avg_spec_witness :
    (0 < 2 ∧ ([0, 2] : List ℕ) ≠ [] ∧ ∀ st ∈ ([0, 2] : List ℕ), st < ([1, 2, 3] : List ℝ).length)
    ∧ (compute_event_avg [1, 2, 3] (Sum.inr [0, 2]) 2).length = 2 := by
  have h1 : (0 : ℕ) < 2 := by norm_num
  have h2 : ([0, 2] : List ℕ) ≠ [] := by simp
  have h3 : ∀ st ∈ ([0, 2] : List ℕ), st < ([1, 2, 3] : List ℝ).length := by
    simp
  exact ⟨⟨h1, h2, h3⟩, (compute_event_avg_spec [1, 2, 3] [0, 2] 2 h1 h2 h3).1⟩

theorem dAt_natCast (l : List ℝ) (j : ℕ) (h : j < l.length) : dAt l (j : ℤ) = l.getD j 0 := by
  simp [dAt, h]

theorem dAt_zero_of_ge (l : List ℝ) (j : ℕ) (h : l.length ≤ j) : dAt l (j : ℤ) = 0 := by
  rw [dAt, if_neg (by omega)]

theorem dAt_zero_of_neg (l : List ℝ) (z : ℤ) (h : z < 0) : dAt l z = 0 := by
  rw [dAt, if_neg (by omega)]

theorem sum_range_extend (f : ℕ → ℝ) (n N : ℕ) (h : n ≤ N)
    (hz : ∀ j, n ≤ j → j < N → f j = 0) :
    ∑ j ∈ Finset.range n, f j = ∑ j ∈ Finset.range N, f j := by
  refine Finset.sum_subset (Finset.range_subset.mpr h) ?_
  intro x hx hnx
  exact hz x (by simpa using hnx) (by simpa using hx)

theorem pad_getD (data : List ℝ) (nk m : ℕ) :
    ((List.replicate (nk - 1) (0 : ℝ) ++ data) ++ List.replicate nk 0).getD m 0
      = dAt data ((m : ℤ) - ((nk - 1 : ℕ) : ℤ)) := by
  rw [getD_append_ite, getD_append_ite]
  simp only [List.length_append, List.length_replicate]
  split_ifs with ho hi2
  · rw [getD_replicate, if_pos hi2, dAt_zero_of_neg data _ (by omega)]
  · rw [show ((m : ℤ) - ((nk - 1 : ℕ) : ℤ)) = ((m - (nk - 1) : ℕ) : ℤ) by omega,
      dAt_natCast data (m - (nk - 1)) (by omega)]
  · rw [getD_replicate,
      show ((m : ℤ) - ((nk - 1 : ℕ) : ℤ)) = ((m - (nk - 1) : ℕ) : ℤ) by omega,
      dAt_zero_of_ge data (m - (nk - 1)) (by omega)]
    split <;> rfl

theorem getD_reverse (l : List ℝ) (j : ℕ) (h : j < l.length) :
    l.reverse.getD j 0 = l.getD (l.length - 1 - j) 0 := by
  rw [List.getD_eq_getElem _ _ (by simpa using h), List.getD_eq_getElem _ _ (by omega)]
  rw [List.getElem_reverse]

theorem sum_dAt_reflect (u v : List ℝ) (i : ℕ) :
    ∑ j ∈ Finset.range (i + 1), dAt u ((i : ℤ) - j) * dAt v (j : ℤ)
      = ∑ j ∈ Finset.range (i + 1), dAt u (j : ℤ) * dAt v ((i : ℤ) - j) := by
  have h := Finset.sum_range_reflect
    (fun j : ℕ => dAt u ((j : ℕ) : ℤ) * dAt v ((i : ℤ) - (j : ℕ))) (i + 1)
  rw [← h]
  refine Finset.sum_congr rfl fun j hj => ?_
  have hj' : j ≤ i := by simpa [Nat.lt_succ_iff] using hj
  have e1 : ((i + 1 - 1 - j : ℕ) : ℤ) = (i : ℤ) - j := by omega
  rw [e1, show (i : ℤ) - ((i : ℤ) - (j : ℤ)) = (j : ℤ) by ring]

theorem conv_sum_comm (u v : List ℝ) (i : ℕ) :
    ∑ j ∈ Finset.range v.length, dAt u ((i : ℤ) - j) * v.getD j 0
      = ∑ j ∈ Finset.range u.length, u.getD j 0 * dAt v ((i : ℤ) - j) := by
  have s1 : ∑ j ∈ Finset.range v.length, dAt u ((i : ℤ) - j) * v.getD j 0
      = ∑ j ∈ Finset.range v.length, dAt u ((i : ℤ) - j) * dAt v (j : ℤ) :=
    Finset.sum_congr rfl fun j hj => by
      simp [dAt_natCast v j (by simpa using hj)]
  have s2 : ∑ j ∈ Finset.range v.length, dAt u ((i : ℤ) - j) * dAt v (j : ℤ)
      = ∑ j ∈ Finset.range (max (i + 1) (max u.length v.length)),
          dAt u ((i : ℤ) - j) * dAt v (j : ℤ) :=
    sum_range_extend _ v.length _ (by omega) fun j hj _ => by
      simp [dAt_zero_of_ge v j hj]
  have s3 : ∑ j ∈ Finset.range (i + 1), dAt u ((i : ℤ) - j) * dAt v (j : ℤ)
      = ∑ j ∈ Finset.range (max (i + 1) (max u.length v.length)),
          dAt u ((i : ℤ) - j) * dAt v (j : ℤ) :=
    sum_range_extend _ (i + 1) _ (by omega) fun j hj _ => by
      simp [dAt_zero_of_neg u ((i : ℤ) - j) (by omega)]
  have s4 : ∑ j ∈ Finset.range (i + 1), dAt u (j : ℤ) * dAt v ((i : ℤ) - j)
      = ∑ j ∈ Finset.range (max (i + 1) (max u.length v.length)),
          dAt u (j : ℤ) * dAt v ((i : ℤ) - j) :=
    sum_range_extend _ (i + 1) _ (by omega) fun j hj _ => by
      simp [dAt_zero_of_neg v ((i : ℤ) - j) (by omega)]
  have s5 : ∑ j ∈ Finset.range u.length, dAt u (j : ℤ) * dAt v ((i : ℤ) - j)
      = ∑ j ∈ Finset.range (max (i + 1) (max u.length v.length)),
          dAt u (j : ℤ) * dAt v ((i : ℤ) - j) :=
    sum_range_extend _ u.length _ (by omega) fun j hj _ => by
      simp [dAt_zero_of_ge u j hj]
  have s6 : ∑ j ∈ Finset.range u.length, dAt u (j : ℤ) * dAt v ((i : ℤ) - j)
      = ∑ j ∈ Finset.range u.length, u.getD j 0 * dAt v ((i : ℤ) - j) :=
    Finset.sum_congr rfl fun j hj => by
      simp [dAt_natCast u j (by simpa using hj)]
  rw [s1, s2, ← s3, sum_dAt_reflect u v i, s4, ← s5, s6]

theorem simple_convolution_length (data kernel : List ℝ) :
    (simple_convolution data kernel).length = data.length := by
  simp only [simple_convolution, List.length_take, List.length_map, List.length_range]
  omega

theorem simple_convolution_getD (data kernel : List ℝ) (hk : kernel ≠ []) (i : ℕ)
    (hi : i < data.length) :
    (simple_convolution data kernel).getD i 0
      = ∑ j ∈ Finset.range kernel.length, dAt data ((i : ℤ) - j) * kernel.getD j 0 := by
  have hnk : 1 ≤ kernel.length := List.length_pos.mpr hk
  simp only [simple_convolution]
  rw [← List.map_take, List.take_range, Nat.min_eq_left (by omega)]
  rw [List.getD_eq_getElem _ _ (by simpa using hi)]
  simp only [List.getElem_map, List.getElem_range]
  rw [if_pos (by simp only [List.length_append, List.length_replicate]; omega)]
  calc ∑ j ∈ Finset.range kernel.length,
        ((List.replicate (kernel.length - 1) (0 : ℝ)
          ++ data) ++ List.replicate kernel.length 0).getD (i + j) 0
          * kernel.reverse.getD j 0
      = ∑ j ∈ Finset.range kernel.length,
          dAt data (((i + j : ℕ) : ℤ) - ((kernel.length - 1 : ℕ) : ℤ))
            * kernel.getD (kernel.length - 1 - j) 0 := by
        refine Finset.sum_congr rfl fun j hj => ?_
        rw [pad_getD, getD_reverse kernel j (by simpa using hj)]
    _ = ∑ j ∈ Finset.range kernel.length,
          dAt data ((i : ℤ) - ((kernel.length - 1 - j : ℕ) : ℤ))
            * kernel.getD (kernel.length - 1 - j) 0 := by
        refine Finset.sum_congr rfl fun j hj => ?_
        have hj' : j < kernel.length := by simpa using hj
        congr 1
        congr 1
        omega
    _ = ∑ j ∈ Finset.range kernel.length, dAt data ((i : ℤ) - j) * kernel.getD j 0 :=
        Finset.sum_range_reflect
          (fun m : ℕ => dAt data ((i : ℤ) - ((m : ℕ) : ℤ)) * kernel.getD m 0)
          kernel.length

theorem simple_convolution_eq_map (data kernel : List ℝ) (hk : kernel ≠ []) :
    simple_convolution data kernel = (List.range data.length).map (convAt data kernel) := by
  apply List.ext_getElem
  · rw [simple_convolution_length]; simp
  · intro i h1 h2
    have hi : i < data.length := by rwa [simple_convolution_length] at h1
    have h := simple_convolution_getD data kernel hk i hi
    rw [conv_sum_comm data kernel i] at h
    rw [← List.getD_eq_getElem _ 0 h1, h]
    simp [convAt]

theorem convolve_full_take (data kernel : List ℝ) (hk : kernel ≠ []) :
    (convolve_full data kernel).take data.length
      = (List.range data.length).map (convAt data kernel) := by
  have hnk : 1 ≤ kernel.length := List.length_pos.mpr hk
  rw [convolve_full, ← List.map_take, List.take_range, Nat.min_eq_left (by omega)]

/-- C2: simple_convolution computes the standard discrete full convolution
truncated to the input length: entry i is the convolution sum
sum over j of data[j] * kernel[i-j], it coincides with np.convolve(x,
kernel, mode='full')[:len(x)], and apply_hrf therefore applies exactly
simple_convolution with the hrf kernel to every design-matrix column. -/
theorem simple_convolution_is_convolution (data kernel : List ℝ) (X : List (List ℝ))
    (shape : String) (tr pttp nttp pos_neg_ratio onset pdsp ndsp : ℝ)
    (ts : Option (List ℝ)) (hk : kernel ≠ [])
    (hh : (hrf shape tr pttp nttp pos_neg_ratio onset pdsp ndsp ts).2.2 ≠ []) :
    (∀ i, i < data.length →
      (simple_convolution data kernel).getD i 0 = convAt data kernel i)
    ∧ simple_convolution data kernel = (convolve_full data kernel).take data.length
    ∧ apply_hrf X shape tr pttp nttp pos_neg_ratio onset pdsp ndsp ts
        = X.map (fun x => simple_convolution x
            (hrf shape tr pttp nttp pos_neg_ratio onset pdsp ndsp ts).2.2) := by
  refine ⟨?_, ?_, ?_⟩
  · intro i hi
    rw [simple_convolution_getD data kernel hk i hi, conv_sum_comm data kernel i]
    rfl
  · rw [simple_convolution_eq_map data kernel hk, convolve_full_take data kernel hk]
  · simp only [apply_hrf]
    refine List.map_congr_left fun x _ => ?_
    rw [convolve_full_take x _ hh, ← simple_convolution_eq_map x _ hh]

/-- C3: the convolution output length equals the input length, and
apply_hrf preserves the full shape of the design matrix, every column being
truncated back to its original number of rows. -/
theorem convolution_preserves_length (data kernel : List ℝ) (X : List (List ℝ))
    (shape : String) (tr pttp nttp pos_neg_ratio onset pdsp ndsp : ℝ)
    (ts : Option (List ℝ)) (hk : kernel ≠ [])
    (hh : (hrf shape tr pttp nttp pos_neg_ratio onset pdsp ndsp ts).2.2 ≠ []) :
    (simple_convolution data kernel).length = data.length
    ∧ (apply_hrf X shape tr pttp nttp pos_neg_ratio onset pdsp ndsp ts).map List.length
        = X.map List.length := by
  refine ⟨simple_convolution_length data kernel, ?_⟩
  simp only [apply_hrf, List.map_map]
  refine List.map_congr_left fun x _ => ?_
  simp only [Function.comp_apply, List.length_take, convolve_full, List.length_map,
    List.length_range]
  have hpos : 1 ≤ (hrf shape tr pttp nttp pos_neg_ratio onset pdsp ndsp ts).2.2.length :=
    List.length_pos.mpr hh
  omega

theorem twogamma_ne_boynton : pyLower "twogamma" ≠ "boynton" := by decide

theorem hrf_default_kernel_length :
    ((hrf "twogamma" 1 5 15 6 0 1 1 none).2.2).length = 32 := by
  have hT : (hrfT 1 15 0 none).length = 32 := by
    simp only [hrfT, arange, List.length_map, List.length_range]
    have hc : Int.ceil ((0 + 2 * ((15 : ℝ) + 1) - 0) / 1) = 32 := by norm_num
    rw [hc]
    rfl
  have hker : (hrf "twogamma" 1 5 15 6 0 1 1 none).2.2
      = (hrfKernelRaw "twogamma" 5 15 6 1 1 (hrfT 1 15 0 none)).map
          (fun x => x / (hrfKernelRaw "twogamma" 5 15 6 1 1 (hrfT 1 15 0 none)).sum) := by
    simp [hrf, pyLower_twogamma]
  rw [hker, List.length_map]
  simp only [hrfKernelRaw]
  rw [if_neg twogamma_ne_boynton, if_pos pyLower_twogamma, List.length_map, hT]

theorem hrf_default_kernel_ne_nil : (hrf "twogamma" 1 5 15 6 0 1 1 none).2.2 ≠ [] :=
  List.length_pos.mp (by rw [hrf_default_kernel_length]; norm_num)

/-- Witness for C2 with data [1, 2], kernel [1], and an empty design
matrix, using the default-parameter hrf kernel for the apply_hrf part. -/
theorem simple_convolution_is_convolution_witness :
    (([1] : List ℝ) ≠ [] ∧ (hrf "twogamma" 1 5 15 6 0 1 1 none).2.2 ≠ [])
    ∧ simple_convolution [1, 2] [1]
        = (convolve_full [1, 2] [1]).take ([1, 2] : List ℝ).length :=
  ⟨⟨by simp, hrf_default_kernel_ne_nil⟩,
    (simple_convolution_is_convolution [1, 2] [1] [] "twogamma" 1 5 15 6 0 1 1 none
      (by simp) hrf_default_kernel_ne_nil).2.1⟩

/-- Witness for C3 with data [1, 2, 3], kernel [1, 0], and a one-column
design matrix. -/
theorem convolution_preserves_length_witness :
    (([1, 0] : List ℝ) ≠ [] ∧ (hrf "twogamma" 1 5 15 6 0 1 1 none).2.2 ≠ [])
    ∧ (simple_convolution [1, 2, 3] [1, 0]).length = ([1, 2, 3] : List ℝ).length :=
  ⟨⟨by simp, hrf_default_kernel_ne_nil⟩,
    (convolution_preserves_length [1, 2, 3] [1, 0] [[5]] "twogamma" 1 5 15 6 0 1 1 none
      (by simp) hrf_default_kernel_ne_nil).1⟩

end Neurods
